import Mathlib

/-!
Shallow embedding of the supermarket point-of-sale backend (src/app/server.js).

The database state (Postgres tables `products`, `orders`, `order_items`) is
modelled as lists of rows; monetary values (`DECIMAL(10,2)` columns and the
JavaScript arithmetic on them) are modelled as exact rationals, `quantity`
and `stock` (`INT` columns) as integers.  Each HTTP handler becomes a pure
function from the request and the current database state to a response and
the next database state.  The `BEGIN`/`ROLLBACK`/`COMMIT` transaction of the
order handler is modelled by threading a working copy of the state through
the per-item loop and publishing it only on the `COMMIT` path; every early
`return` in the source executes `ROLLBACK`, which the model renders by
returning the original state unchanged.
-/

namespace Supermarket

/-- A row of the `products` table: `id UUID`, `name VARCHAR UNIQUE`,
`price DECIMAL(10,2)`, `stock INT`, `barcode VARCHAR UNIQUE`.  Opaque UUIDs
are modelled as naturals. -/
structure Product where
  id : Nat
  name : String
  price : Rat
  stock : Int
  barcode : Option String
deriving Repr, DecidableEq

/-- A row of the `orders` table: `id`, `total DECIMAL(10,2)`, `pickup_code`.
The `created_at` timestamp plays no role in any claim and is omitted. -/
structure Order where
  id : Nat
  total : Rat
  pickupCode : String
deriving Repr, DecidableEq

/-- A row of the `order_items` table. -/
structure OrderItemRow where
  orderId : Nat
  productId : Nat
  quantity : Int
deriving Repr, DecidableEq

/-- The whole database state. -/
structure DB where
  products : List Product
  orders : List Order
  orderItems : List OrderItemRow
deriving Repr, DecidableEq

/-- One element of the request body's `items` array. -/
structure ReqItem where
  productId : Nat
  quantity : Int
deriving Repr, DecidableEq

/-- The `items` field of a POST /api/orders body: it can be absent,
present but not an array, or an array (`Array.isArray` distinguishes the
cases in the source). -/
inductive ItemsField where
  | absent : ItemsField
  | notList : ItemsField
  | list : List ReqItem → ItemsField
deriving Repr, DecidableEq

/-- The query `SELECT ... FROM products WHERE id = $1` — the first row with the id. -/
def findProduct (ps : List Product) (pid : Nat) : Option Product :=
  ps.find? (fun p => p.id == pid)

/-- The update `UPDATE products SET stock = stock - $1 WHERE id = $2`. -/
def updateStock (ps : List Product) (pid : Nat) (qty : Int) : List Product :=
  ps.map (fun p => if p.id == pid then { p with stock := p.stock - qty } else p)

/-- A resolved line item pushed onto `orderItems` in the handler
(`productId`, `quantity`, `name`, `price` as looked up). -/
structure ResolvedItem where
  productId : Nat
  quantity : Int
  name : String
  price : Rat
deriving Repr, DecidableEq

/-- The error exits of the per-item loop of POST /api/orders. -/
inductive OrderError where
  | notFound : Nat → OrderError
  | insufficientStock : Nat → OrderError
deriving Repr, DecidableEq

/-- The per-item loop of POST /api/orders (server.js lines 153-187): for each
item in list order, look up the product (`FOR UPDATE`), fail `404` if absent,
fail `400` if `product.stock < item.quantity`, otherwise accumulate the
subtotal, decrement the stock in the transaction-local state and record the
resolved item. -/
def processItems (ps : List Product) (total : Rat) (acc : List ResolvedItem) :
    List ReqItem → Except OrderError (List Product × Rat × List ResolvedItem)
  | [] => .ok (ps, total, acc)
  | item :: rest =>
    match findProduct ps item.productId with
    | none => .error (.notFound item.productId)
    | some product =>
      if product.stock < item.quantity then
        .error (.insufficientStock item.productId)
      else
        processItems (updateStock ps item.productId item.quantity)
          (total + product.price * (item.quantity : Rat))
          (acc ++ [⟨product.id, item.quantity, product.name, product.price⟩])
          rest

/-- JavaScript `Number.prototype.toFixed(2)` on an exact decimal value: round to the
nearest hundredth, ties toward the larger value, and render with exactly two
digits after the point. -/
def toFixed2 (q : Rat) : String :=
  let n : Int := round (q * 100)
  let sign := if n < 0 then "-" else ""
  let m := n.natAbs
  let frac := m % 100
  let fracStr := if frac < 10 then "0" ++ toString frac else toString frac
  sign ++ toString (m / 100) ++ "." ++ fracStr

/-- Storing a value into a `DECIMAL(10,2)` column rounds it to two decimal
places. -/
def round2 (q : Rat) : Rat :=
  ((round (q * 100) : Int) : Rat) / 100

/-- The response of POST /api/orders: the success body
`(orderId, total, pickupCode, items)` or one of the error bodies. -/
inductive OrderResult where
  | ok : Nat → String → String → List ResolvedItem → OrderResult
  | invalidRequest : OrderResult
  | productNotFound : Nat → OrderResult
  | insufficientStock : Nat → OrderResult
deriving Repr, DecidableEq

/-- The HTTP status the handler attaches to each response. -/
def OrderResult.status : OrderResult → Nat
  | .ok _ _ _ _ => 200
  | .invalidRequest => 400
  | .productNotFound _ => 404
  | .insufficientStock _ => 400

def OrderResult.isOk : OrderResult → Bool
  | .ok _ _ _ _ => true
  | _ => false

/-- The POST /api/orders handler (server.js lines 139-224).  `nextOrderId` is
the UUID the database generates for the new order row and `pickupCode` the
code produced from `Math.random()`; both are inputs to the pure model.  Every
error path executes `ROLLBACK`, so the model returns the original state
there; the success path executes `COMMIT`, publishing the decremented stocks
together with the new `orders` row and its `order_items` rows. -/
def postOrders (db : DB) (nextOrderId : Nat) (pickupCode : String) :
    ItemsField → OrderResult × DB
  | .absent => (.invalidRequest, db)
  | .notList => (.invalidRequest, db)
  | .list items =>
    if items.isEmpty then (.invalidRequest, db)
    else
      match processItems db.products 0 [] items with
      | .error (.notFound pid) => (.productNotFound pid, db)
      | .error (.insufficientStock pid) => (.insufficientStock pid, db)
      | .ok (ps, total, resolved) =>
        let totalWithTax := total * (108 / 100 : Rat)
        let db2 : DB :=
          { products := ps
            orders := db.orders ++ [⟨nextOrderId, round2 totalWithTax, pickupCode⟩]
            orderItems := db.orderItems ++
              resolved.map (fun r => ⟨nextOrderId, r.productId, r.quantity⟩) }
        (.ok nextOrderId (toFixed2 totalWithTax) pickupCode resolved, db2)

/-- GET /api/products/barcode/:barcode (server.js lines 256-273):
`SELECT * FROM products WHERE barcode = $1`; 404 on an empty result set,
otherwise the first returned row. -/
def getProductByBarcode (db : DB) (bc : String) : Nat × Except String Product :=
  match db.products.filter (fun p => p.barcode == some bc) with
  | [] => (404, .error "Product not found")
  | p :: _ => (200, .ok p)

/-- One `VALUES` row of the seeding `INSERT ... ON CONFLICT (name) DO UPDATE`
statement in `initDB`. -/
structure SeedRow where
  name : String
  price : Rat
  stock : Int
  barcode : String
deriving Repr, DecidableEq

/-- The nine sample products of `initDB` (server.js lines 90-107). -/
def seedRows : List SeedRow :=
  [⟨"Milk", 3, 50, "1234567890"⟩,
   ⟨"Bread", 2, 100, "1111222233"⟩,
   ⟨"Eggs", 7/2, 75, "6677889900"⟩,
   ⟨"Cheese", 9/2, 40, "4444555566"⟩,
   ⟨"Butter", 11/4, 30, "7777888899"⟩,
   ⟨"Yogurt", 5/4, 60, "3333444455"⟩,
   ⟨"Apple", 3/4, 120, "8888999900"⟩,
   ⟨"Banana", 1/2, 150, "2222333344"⟩,
   ⟨"Orange", 17/20, 100, "5555666677"⟩]

/-- Upsert of one `VALUES` row by the unique `name`: on conflict the existing
row keeps its id and gets the row's price, stock and barcode; otherwise a new
row is inserted with a fresh id.  Returns the table and the next fresh id. -/
def upsertProduct (ps : List Product) (fresh : Nat) (r : SeedRow) :
    List Product × Nat :=
  if (ps.find? (fun p => p.name == r.name)).isSome then
    (ps.map (fun p =>
      if p.name == r.name then
        { p with price := r.price, stock := r.stock, barcode := some r.barcode }
      else p), fresh)
  else
    (ps ++ [⟨fresh, r.name, r.price, r.stock, some r.barcode⟩], fresh + 1)

/-- The catalog-seeding step of `initDB` over an arbitrary row list. -/
def seedWith (rows : List SeedRow) (ps : List Product) (fresh : Nat) :
    List Product × Nat :=
  rows.foldl (fun st r => upsertProduct st.1 st.2 r) (ps, fresh)

/-- The catalog-seeding step of `initDB`: upsert the nine sample rows. -/
def seedCatalog (ps : List Product) (fresh : Nat) : List Product × Nat :=
  seedWith seedRows ps fresh

/-- The product table right after seeding an empty database (ids 0..8). -/
def seedProducts : List Product := (seedCatalog [] 0).1

/-- The database right after startup on an empty store. -/
def seedDB : DB := ⟨seedProducts, [], []⟩

/-! ### Spec-side projections and reference functions

The following definitions follow the spec's own wording and are compared
with the handler above: decrementing every product by its requested
quantity, the subtotal Σ(unit price × quantity), and the per-product sum of
requested quantities. -/

/-- Stock of the product with the given id (0 when absent). -/
def stockOf (ps : List Product) (pid : Nat) : Int :=
  ((findProduct ps pid).map Product.stock).getD 0

/-- Price of the product with the given id (0 when absent). -/
def priceOf (ps : List Product) (pid : Nat) : Rat :=
  ((findProduct ps pid).map Product.price).getD 0

/-- Name of the product with the given id (empty when absent). -/
def nameOf (ps : List Product) (pid : Nat) : String :=
  ((findProduct ps pid).map Product.name).getD ""

/-- Spec wording: decrement each product's stock by its requested quantity,
item by item in list order. -/
def decrementAll (ps : List Product) (items : List ReqItem) : List Product :=
  items.foldl (fun acc it => updateStock acc it.productId it.quantity) ps

/-- Spec wording: the subtotal Σ(unit price × quantity) over the items,
prices read from the given product table. -/
def specSubtotal (ps : List Product) (items : List ReqItem) : Rat :=
  (items.map (fun it => priceOf ps it.productId * (it.quantity : Rat))).sum

/-- The resolved item list the handler returns, expressed from the initial
product table. -/
def resolveAll (ps : List Product) (items : List ReqItem) : List ResolvedItem :=
  items.map (fun it =>
    ⟨it.productId, it.quantity, nameOf ps it.productId, priceOf ps it.productId⟩)

/-- Sum of the requested quantities of one product over a request
(duplicate occurrences of the same productId add up). -/
def qtySum (items : List ReqItem) (pid : Nat) : Int :=
  ((items.filter (fun it => it.productId == pid)).map ReqItem.quantity).sum

/-- Spec wording for the `InsufficientStock` condition: some item processed
in list order requests strictly more than that product's stock at the time
it is checked (stock already reduced by the earlier items of the request);
an unknown product aborts processing before any such check. -/
def specStockRunsOut (ps : List Product) : List ReqItem → Bool
  | [] => false
  | it :: rest =>
    match findProduct ps it.productId with
    | none => false
    | some p =>
      if p.stock < it.quantity then true
      else specStockRunsOut (updateStock ps it.productId it.quantity) rest

/-- Did the per-item loop abort with an insufficient-stock error? -/
def isInsufficientExc :
    Except OrderError (List Product × Rat × List ResolvedItem) → Bool
  | .error (.insufficientStock _) => true
  | _ => false

/-- Is the response the insufficient-stock error body? -/
def OrderResult.isInsufficient : OrderResult → Bool
  | .insufficientStock _ => true
  | _ => false

/-! ### Lemmas about `updateStock` and `findProduct` -/

theorem updateStock_id_map (ps : List Product) (pid : Nat) (qty : Int) :
    (updateStock ps pid qty).map Product.id = ps.map Product.id := by
  induction ps with
  | nil => rfl
  | cons a ps ih =>
    simp only [updateStock, List.map_cons] at *
    refine congrArg₂ _ ?_ ih
    by_cases h : (a.id == pid) = true <;> simp [h]

theorem findProduct_updateStock (ps : List Product) (pid : Nat) (qty : Int)
    (j : Nat) :
    findProduct (updateStock ps pid qty) j =
      (findProduct ps j).map
        (fun p => if p.id == pid then { p with stock := p.stock - qty } else p) := by
  unfold findProduct updateStock
  rw [List.find?_map]
  refine congrArg _ (congrArg₂ _ (funext fun p => ?_) rfl)
  show ((if (p.id == pid) = true then { p with stock := p.stock - qty }
      else p).id == j) = (p.id == j)
  by_cases h : (p.id == pid) = true
  · rw [if_pos h]
  · rw [if_neg h]

theorem findProduct_isSome_updateStock (ps : List Product) (pid : Nat)
    (qty : Int) (j : Nat) :
    (findProduct (updateStock ps pid qty) j).isSome = (findProduct ps j).isSome := by
  rw [findProduct_updateStock]
  cases findProduct ps j <;> rfl

theorem findProduct_id (ps : List Product) (j : Nat) (p : Product)
    (hp : findProduct ps j = some p) : p.id = j := by
  unfold findProduct at hp
  have hb := List.find?_some hp
  exact eq_of_beq hb

theorem findProduct_mem (ps : List Product) (j : Nat) (p : Product)
    (hp : findProduct ps j = some p) : p ∈ ps := by
  unfold findProduct at hp
  exact List.mem_of_find?_eq_some hp

theorem priceOf_updateStock (ps : List Product) (pid : Nat) (qty : Int)
    (j : Nat) : priceOf (updateStock ps pid qty) j = priceOf ps j := by
  unfold priceOf
  rw [findProduct_updateStock]
  cases findProduct ps j with
  | none => rfl
  | some p =>
    show (if (p.id == pid) = true then { p with stock := p.stock - qty }
      else p).price = p.price
    by_cases h : (p.id == pid) = true
    · rw [if_pos h]
    · rw [if_neg h]

theorem nameOf_updateStock (ps : List Product) (pid : Nat) (qty : Int)
    (j : Nat) : nameOf (updateStock ps pid qty) j = nameOf ps j := by
  unfold nameOf
  rw [findProduct_updateStock]
  cases findProduct ps j with
  | none => rfl
  | some p =>
    show (if (p.id == pid) = true then { p with stock := p.stock - qty }
      else p).name = p.name
    by_cases h : (p.id == pid) = true
    · rw [if_pos h]
    · rw [if_neg h]

theorem stockOf_updateStock (ps : List Product) (pid : Nat) (qty : Int)
    (j : Nat) (h : (findProduct ps j).isSome = true) :
    stockOf (updateStock ps pid qty) j =
      if j = pid then stockOf ps j - qty else stockOf ps j := by
  obtain ⟨p, hp⟩ := Option.isSome_iff_exists.mp h
  have hpj : p.id = j := findProduct_id ps j p hp
  unfold stockOf
  rw [findProduct_updateStock, hp]
  by_cases hj : j = pid
  · have hb : (p.id == pid) = true := by rw [hpj]; exact beq_iff_eq.mpr hj
    rw [if_pos hj]
    show (if (p.id == pid) = true then { p with stock := p.stock - qty }
      else p).stock = p.stock - qty
    rw [if_pos hb]
  · have hb : ¬((p.id == pid) = true) := by
      rw [hpj]; exact fun hc => hj (eq_of_beq hc)
    rw [if_neg hj]
    show (if (p.id == pid) = true then { p with stock := p.stock - qty }
      else p).stock = p.stock
    rw [if_neg hb]

theorem priceOf_of_find (ps : List Product) (pid : Nat) (p : Product)
    (hf : findProduct ps pid = some p) : priceOf ps pid = p.price := by
  unfold priceOf; rw [hf]; rfl

theorem nameOf_of_find (ps : List Product) (pid : Nat) (p : Product)
    (hf : findProduct ps pid = some p) : nameOf ps pid = p.name := by
  unfold nameOf; rw [hf]; rfl

theorem specSubtotal_updateStock (ps : List Product) (pid : Nat) (qty : Int)
    (items : List ReqItem) :
    specSubtotal (updateStock ps pid qty) items = specSubtotal ps items := by
  unfold specSubtotal
  refine congrArg _ (congrArg₂ _ (funext fun it => ?_) rfl)
  rw [priceOf_updateStock]

theorem resolveAll_updateStock (ps : List Product) (pid : Nat) (qty : Int)
    (items : List ReqItem) :
    resolveAll (updateStock ps pid qty) items = resolveAll ps items := by
  unfold resolveAll
  refine congrArg₂ _ (funext fun it => ?_) rfl
  rw [priceOf_updateStock, nameOf_updateStock]

theorem specSubtotal_cons (ps : List Product) (it : ReqItem)
    (rest : List ReqItem) :
    specSubtotal ps (it :: rest) =
      priceOf ps it.productId * (it.quantity : Rat) + specSubtotal ps rest := by
  unfold specSubtotal
  rw [List.map_cons, List.sum_cons]

/-- The success case of the per-item loop: the final product table is every
stock decremented in order, the accumulated total is the spec subtotal, the
resolved items are the spec resolution, and every referenced product exists
in the initial table. -/
theorem processItems_ok_eq (items : List ReqItem) :
    ∀ (ps : List Product) (total : Rat) (acc : List ResolvedItem)
      (out : List Product × Rat × List ResolvedItem),
      processItems ps total acc items = .ok out →
      out.1 = decrementAll ps items ∧
      out.2.1 = total + specSubtotal ps items ∧
      out.2.2 = acc ++ resolveAll ps items ∧
      ∀ it ∈ items, (findProduct ps it.productId).isSome = true := by
  induction items with
  | nil =>
    intro ps total acc out h
    simp only [processItems] at h
    injection h with h
    rw [← h]
    refine ⟨rfl, (add_zero total).symm, (List.append_nil acc).symm, ?_⟩
    intro it hit
    exact absurd hit (List.not_mem_nil it)
  | cons it rest ih =>
    intro ps total acc out h
    simp only [processItems] at h
    split at h
    · exact Except.noConfusion h
    · next product hf =>
      split at h
      · exact Except.noConfusion h
      · next hs =>
        obtain ⟨h1, h2, h3, h4⟩ := ih _ _ _ _ h
        have hpid : product.id = it.productId := findProduct_id _ _ _ hf
        have hpr : priceOf ps it.productId = product.price :=
          priceOf_of_find _ _ _ hf
        have hpn : nameOf ps it.productId = product.name :=
          nameOf_of_find _ _ _ hf
        refine ⟨h1, ?_, ?_, ?_⟩
        · rw [h2, specSubtotal_updateStock, specSubtotal_cons, hpr]
          ring
        · rw [h3, resolveAll_updateStock]
          have : resolveAll ps (it :: rest) =
              (⟨it.productId, it.quantity, nameOf ps it.productId,
                priceOf ps it.productId⟩ : ResolvedItem) :: resolveAll ps rest := rfl
          rw [this, hpr, hpn, List.append_assoc, List.singleton_append, hpid]
        · intro x hx
          rcases List.mem_cons.mp hx with hx | hx
          · rw [hx, hf]; rfl
          · have := h4 x hx
            rwa [findProduct_isSome_updateStock] at this

/-- Stock after decrementing all items: the initial stock minus the summed
requested quantities of that product. -/
theorem stockOf_decrementAll (items : List ReqItem) :
    ∀ (ps : List Product) (j : Nat), (findProduct ps j).isSome = true →
      stockOf (decrementAll ps items) j = stockOf ps j - qtySum items j := by
  induction items with
  | nil =>
    intro ps j _
    show stockOf ps j = stockOf ps j - qtySum [] j
    have : qtySum [] j = 0 := rfl
    rw [this, sub_zero]
  | cons it rest ih =>
    intro ps j h
    have h2 : (findProduct (updateStock ps it.productId it.quantity) j).isSome
        = true := by rw [findProduct_isSome_updateStock]; exact h
    show stockOf (decrementAll (updateStock ps it.productId it.quantity) rest) j
        = stockOf ps j - qtySum (it :: rest) j
    rw [ih _ _ h2, stockOf_updateStock ps it.productId it.quantity j h]
    have hq : qtySum (it :: rest) j =
        (if (it.productId == j) = true then it.quantity else 0)
          + qtySum rest j := by
      unfold qtySum
      rw [List.filter_cons]
      by_cases hc : (it.productId == j) = true
      · rw [if_pos hc, if_pos hc, List.map_cons, List.sum_cons]
      · rw [if_neg hc, if_neg hc, zero_add]
    rw [hq]
    by_cases hj : j = it.productId
    · have hc : (it.productId == j) = true := beq_iff_eq.mpr hj.symm
      rw [if_pos hj, if_pos hc]
      omega
    · have hc : ¬((it.productId == j) = true) :=
        fun hc => hj (eq_of_beq hc).symm
      rw [if_neg hj, if_neg hc]
      omega

/-- The per-item loop aborts with an insufficient-stock error exactly when
the spec-side sequential stock check runs out. -/
theorem processItems_insufficient (items : List ReqItem) :
    ∀ (ps : List Product) (total : Rat) (acc : List ResolvedItem),
      isInsufficientExc (processItems ps total acc items)
        = specStockRunsOut ps items := by
  induction items with
  | nil => intro ps total acc; rfl
  | cons it rest ih =>
    intro ps total acc
    simp only [processItems, specStockRunsOut]
    split
    · rfl
    · split
      · rfl
      · exact ih _ _ _

/-- The per-item loop preserves stock non-negativity: a passed check means
the requested quantity is at most the (unique) matching row's stock. -/
theorem processItems_nonneg (items : List ReqItem) :
    ∀ (ps : List Product) (total : Rat) (acc : List ResolvedItem)
      (out : List Product × Rat × List ResolvedItem),
      (ps.map Product.id).Nodup → (∀ p ∈ ps, 0 ≤ p.stock) →
      processItems ps total acc items = .ok out →
      ∀ p ∈ out.1, 0 ≤ p.stock := by
  induction items with
  | nil =>
    intro ps total acc out hnd hpos h
    simp only [processItems] at h
    injection h with h
    rw [← h]
    exact hpos
  | cons it rest ih =>
    intro ps total acc out hnd hpos h
    simp only [processItems] at h
    split at h
    · exact Except.noConfusion h
    · next product hf =>
      split at h
      · exact Except.noConfusion h
      · next hs =>
        refine ih _ _ _ _ ?_ ?_ h
        · rw [updateStock_id_map]; exact hnd
        · intro q hq
          unfold updateStock at hq
          obtain ⟨p0, hp0, hfp⟩ := List.mem_map.mp hq
          rw [← hfp]
          by_cases hc : (p0.id == it.productId) = true
          · have hmemprod : product ∈ ps := findProduct_mem _ _ _ hf
            have hidp : product.id = it.productId := findProduct_id _ _ _ hf
            have hp0prod : p0 = product :=
              List.inj_on_of_nodup_map hnd hp0 hmemprod
                (by rw [hidp]; exact eq_of_beq hc)
            show 0 ≤ (if (p0.id == it.productId) = true
              then { p0 with stock := p0.stock - it.quantity } else p0).stock
            rw [if_pos hc, hp0prod]
            have h0 : 0 ≤ product.stock := hpos product hmemprod
            show 0 ≤ product.stock - it.quantity
            omega
          · show 0 ≤ (if (p0.id == it.productId) = true
              then { p0 with stock := p0.stock - it.quantity } else p0).stock
            rw [if_neg hc]
            exact hpos p0 hp0

/-! ### `postOrders`-level helpers -/

/-- Either the handler rolled back (state unchanged) or it committed. -/
theorem postOrders_snd (db : DB) (n : Nat) (pc : String) (body : ItemsField) :
    (postOrders db n pc body).2 = db ∨
      (postOrders db n pc body).1.isOk = true := by
  cases body with
  | absent => exact Or.inl rfl
  | notList => exact Or.inl rfl
  | list items =>
    simp only [postOrders]
    split
    · exact Or.inl rfl
    · split
      · exact Or.inl rfl
      · exact Or.inl rfl
      · exact Or.inr rfl

/-- Rollback: any non-success response leaves the state untouched. -/
theorem postOrders_err_state (db : DB) (n : Nat) (pc : String)
    (body : ItemsField) (h : (postOrders db n pc body).1.isOk = false) :
    (postOrders db n pc body).2 = db := by
  rcases postOrders_snd db n pc body with h2 | h2
  · exact h2
  · rw [h2] at h; exact Bool.noConfusion h

/-- Commit: on success the whole call is characterized by the spec-side
functions, and every referenced product exists. -/
theorem postOrders_ok_master (db : DB) (n : Nat) (pc : String)
    (items : List ReqItem)
    (hok : (postOrders db n pc (.list items)).1.isOk = true) :
    postOrders db n pc (.list items) =
      (.ok n (toFixed2 (specSubtotal db.products items * (108 / 100 : Rat))) pc
         (resolveAll db.products items),
       ⟨decrementAll db.products items,
        db.orders ++
          [⟨n, round2 (specSubtotal db.products items * (108 / 100 : Rat)), pc⟩],
        db.orderItems ++
          items.map (fun it => ⟨n, it.productId, it.quantity⟩)⟩) ∧
      (∃ out, processItems db.products 0 [] items = .ok out) ∧
      ∀ it ∈ items, (findProduct db.products it.productId).isSome = true := by
  simp only [postOrders] at hok ⊢
  split at hok
  · exact Bool.noConfusion hok
  · next hne =>
    split at hok
    · exact Bool.noConfusion hok
    · exact Bool.noConfusion hok
    · next ps' total resolved heq =>
      obtain ⟨h1, h2, h3, h4⟩ := processItems_ok_eq items _ _ _ _ heq
      simp only [zero_add] at h2
      simp only [List.nil_append] at h3
      have h1' : ps' = decrementAll db.products items := h1
      refine ⟨?_, ⟨_, heq⟩, h4⟩
      rw [if_neg hne, h1', h2, h3]
      have hm : (resolveAll db.products items).map
          (fun r => (⟨n, r.productId, r.quantity⟩ : OrderItemRow))
            = items.map (fun it => (⟨n, it.productId, it.quantity⟩ : OrderItemRow)) := by
        unfold resolveAll
        rw [List.map_map]
        exact congrArg₂ _ (funext fun it => rfl) rfl
      rw [hm]

/-- The handler reports insufficient stock exactly when the spec-side
sequential check runs out (an empty request is rejected as invalid before
any stock check). -/
theorem postOrders_isInsufficient (db : DB) (n : Nat) (pc : String)
    (items : List ReqItem) :
    (postOrders db n pc (.list items)).1.isInsufficient
      = specStockRunsOut db.products items := by
  simp only [postOrders]
  split
  · next he =>
    rw [List.isEmpty_iff.mp he]
    rfl
  · have hmain := processItems_insufficient items db.products 0 []
    split
    · next pid heq => rw [heq] at hmain; exact hmain
    · next pid heq => rw [heq] at hmain; exact hmain
    · next ps' total resolved heq => rw [heq] at hmain; exact hmain

/-- A nonempty request whose per-item loop succeeds commits. -/
theorem postOrders_isOk_of (db : DB) (n : Nat) (pc : String)
    (items : List ReqItem) (hne : items.isEmpty = false)
    (out : List Product × Rat × List ResolvedItem)
    (hp : processItems db.products 0 [] items = .ok out) :
    (postOrders db n pc (.list items)).1.isOk = true := by
  obtain ⟨ps', total, resolved⟩ := out
  simp only [postOrders]
  rw [if_neg (by rw [hne]; exact Bool.false_ne_true)]
  simp only [hp]
  rfl

/-- A single item requesting exactly the product's current stock passes its
check and the order commits. -/
theorem postOrders_exact_stock (db : DB) (n : Nat) (pc : String)
    (pid : Nat) (p : Product) (hf : findProduct db.products pid = some p) :
    (postOrders db n pc (.list [⟨pid, p.stock⟩])).1.isOk = true := by
  have hp : processItems db.products 0 [] [⟨pid, p.stock⟩] =
      .ok (updateStock db.products pid p.stock,
           0 + p.price * (p.stock : Rat),
           [] ++ [⟨p.id, p.stock, p.name, p.price⟩]) := by
    simp only [processItems, hf]
    rw [if_neg (show ¬(p.stock < (⟨pid, p.stock⟩ : ReqItem).quantity)
      from lt_irrefl p.stock)]
  exact postOrders_isOk_of db n pc _ rfl _ hp

/-! ### Lemmas about catalog seeding -/

theorem map_eq_self_of {α : Type} (f : α → α) :
    ∀ (l : List α), (∀ x ∈ l, f x = x) → l.map f = l := by
  intro l h
  induction l with
  | nil => rfl
  | cons a l ih =>
    rw [List.map_cons, h a (List.mem_cons_self a l),
      ih (fun x hx => h x (List.mem_cons_of_mem a hx))]

/-- Every row carrying the seed row's name already carries its values, and
at least one such row exists. -/
def SeedApplied (r : SeedRow) (ps : List Product) : Prop :=
  (∃ p ∈ ps, p.name = r.name) ∧
  ∀ p ∈ ps, p.name = r.name →
    p.price = r.price ∧ p.stock = r.stock ∧ p.barcode = some r.barcode

/-- Upserting a row whose values are already applied changes nothing. -/
theorem upsert_of_applied (ps : List Product) (f : Nat) (r : SeedRow)
    (h : SeedApplied r ps) : upsertProduct ps f r = (ps, f) := by
  obtain ⟨⟨p0, hp0, hname⟩, hall⟩ := h
  unfold upsertProduct
  have hfind : (ps.find? (fun p => p.name == r.name)).isSome = true :=
    List.find?_isSome.mpr ⟨p0, hp0, beq_iff_eq.mpr hname⟩
  rw [if_pos hfind]
  refine congrArg₂ Prod.mk ?_ rfl
  refine map_eq_self_of _ ps fun p hp => ?_
  show (if (p.name == r.name) = true then
    { p with price := r.price, stock := r.stock, barcode := some r.barcode }
    else p) = p
  by_cases hc : (p.name == r.name) = true
  · obtain ⟨hpr, hst, hbc⟩ := hall p hp (eq_of_beq hc)
    rw [if_pos hc, ← hpr, ← hst, ← hbc]
  · rw [if_neg hc]

/-- After upserting a row, it is applied. -/
theorem applied_after_upsert (ps : List Product) (f : Nat) (r : SeedRow) :
    SeedApplied r (upsertProduct ps f r).1 := by
  unfold upsertProduct
  by_cases hc : (ps.find? (fun p => p.name == r.name)).isSome = true
  · rw [if_pos hc]
    obtain ⟨p0, hp0, hb0⟩ := List.find?_isSome.mp hc
    constructor
    · refine ⟨_, List.mem_map_of_mem _ hp0, ?_⟩
      show (if (p0.name == r.name) = true then
        { p0 with price := r.price, stock := r.stock, barcode := some r.barcode }
        else p0).name = r.name
      rw [if_pos hb0]
      exact eq_of_beq hb0
    · intro p hp hname
      obtain ⟨q, hq, hfq⟩ := List.mem_map.mp hp
      by_cases hqc : (q.name == r.name) = true
      · rw [← hfq]
        show (if (q.name == r.name) = true then
          { q with price := r.price, stock := r.stock, barcode := some r.barcode }
          else q).price = r.price ∧ _ ∧ _
        rw [if_pos hqc]
        exact ⟨rfl, rfl, rfl⟩
      · exfalso
        have h1 : p = q := by
          rw [← hfq]
          show (if (q.name == r.name) = true then
            { q with price := r.price, stock := r.stock, barcode := some r.barcode }
            else q) = q
          rw [if_neg hqc]
        rw [h1] at hname
        exact hqc (beq_iff_eq.mpr hname)
  · rw [if_neg hc]
    have hnone : ps.find? (fun p => p.name == r.name) = none :=
      Option.not_isSome_iff_eq_none.mp hc
    constructor
    · exact ⟨⟨f, r.name, r.price, r.stock, some r.barcode⟩,
        List.mem_append.mpr (Or.inr (List.mem_singleton_self _)), rfl⟩
    · intro p hp hname
      rcases List.mem_append.mp hp with hp | hp
      · exact absurd (beq_iff_eq.mpr hname) (List.find?_eq_none.mp hnone p hp)
      · rw [List.mem_singleton.mp hp]
        exact ⟨rfl, rfl, rfl⟩

/-- Upserting a row with a different name preserves appliedness. -/
theorem applied_upsert_ne (ps : List Product) (f : Nat) (s r : SeedRow)
    (hne : s.name ≠ r.name) (h : SeedApplied r ps) :
    SeedApplied r (upsertProduct ps f s).1 := by
  obtain ⟨⟨p0, hp0, hname⟩, hall⟩ := h
  unfold upsertProduct
  by_cases hc : (ps.find? (fun p => p.name == s.name)).isSome = true
  · rw [if_pos hc]
    constructor
    · refine ⟨_, List.mem_map_of_mem _ hp0, ?_⟩
      show (if (p0.name == s.name) = true then
        { p0 with price := s.price, stock := s.stock, barcode := some s.barcode }
        else p0).name = r.name
      have hb : ¬((p0.name == s.name) = true) := by
        intro hb
        exact hne (by rw [← eq_of_beq hb, hname])
      rw [if_neg hb]
      exact hname
    · intro p hp hpname
      obtain ⟨q, hq, hfq⟩ := List.mem_map.mp hp
      by_cases hqc : (q.name == s.name) = true
      · exfalso
        have h1 : p.name = q.name := by
          rw [← hfq]
          show (if (q.name == s.name) = true then
            { q with price := s.price, stock := s.stock, barcode := some s.barcode }
            else q).name = q.name
          rw [if_pos hqc]
        exact hne (by rw [← eq_of_beq hqc, ← h1, hpname])
      · have h1 : p = q := by
          rw [← hfq]
          show (if (q.name == s.name) = true then
            { q with price := s.price, stock := s.stock, barcode := some s.barcode }
            else q) = q
          rw [if_neg hqc]
        rw [h1] at hpname ⊢
        exact hall q hq hpname
  · rw [if_neg hc]
    constructor
    · exact ⟨p0, List.mem_append.mpr (Or.inl hp0), hname⟩
    · intro p hp hpname
      rcases List.mem_append.mp hp with hp | hp
      · exact hall p hp hpname
      · exfalso
        rw [List.mem_singleton.mp hp] at hpname
        exact hne hpname

theorem seedWith_cons (s : SeedRow) (rest : List SeedRow) (ps : List Product)
    (f : Nat) :
    seedWith (s :: rest) ps f =
      seedWith rest (upsertProduct ps f s).1 (upsertProduct ps f s).2 := rfl

/-- Seeding rows none of which share the row's name preserves appliedness. -/
theorem seedWith_preserves (rows : List SeedRow) :
    ∀ (ps : List Product) (f : Nat) (r : SeedRow),
      (∀ s ∈ rows, s.name ≠ r.name) → SeedApplied r ps →
      SeedApplied r (seedWith rows ps f).1 := by
  induction rows with
  | nil => intro ps f r _ h; exact h
  | cons s rest ih =>
    intro ps f r hall h
    rw [seedWith_cons]
    exact ih _ _ r (fun t ht => hall t (List.mem_cons_of_mem s ht))
      (applied_upsert_ne ps f s r (hall s (List.mem_cons_self s rest)) h)

/-- After seeding a duplicate-free row list, every row is applied. -/
theorem seedWith_applied (rows : List SeedRow) :
    ∀ (ps : List Product) (f : Nat) (r : SeedRow), r ∈ rows →
      (rows.map SeedRow.name).Nodup → SeedApplied r (seedWith rows ps f).1 := by
  induction rows with
  | nil => intro ps f r hr _; exact absurd hr (List.not_mem_nil r)
  | cons s rest ih =>
    intro ps f r hr hnd
    rw [List.map_cons, List.nodup_cons] at hnd
    obtain ⟨hsn, hndrest⟩ := hnd
    rw [seedWith_cons]
    rcases List.mem_cons.mp hr with hr | hr
    · rw [hr]
      refine seedWith_preserves rest _ _ s ?_ (applied_after_upsert ps f s)
      intro t ht hteq
      exact hsn (hteq ▸ List.mem_map_of_mem SeedRow.name ht)
    · exact ih _ _ r hr hndrest

/-- Seeding a table where every row is already applied changes nothing. -/
theorem seedWith_of_all_applied (rows : List SeedRow) :
    ∀ (ps : List Product) (f : Nat),
      (∀ r ∈ rows, SeedApplied r ps) → seedWith rows ps f = (ps, f) := by
  induction rows with
  | nil => intro ps f _; rfl
  | cons s rest ih =>
    intro ps f hall
    rw [seedWith_cons, upsert_of_applied ps f s (hall s (List.mem_cons_self s rest))]
    exact ih ps f (fun r hr => hall r (List.mem_cons_of_mem s hr))

/-- An upsert preserves the name column of existing rows and only appends a
name that was absent, so name uniqueness is preserved. -/
theorem names_nodup_upsert (ps : List Product) (f : Nat) (r : SeedRow)
    (h : (ps.map Product.name).Nodup) :
    ((upsertProduct ps f r).1.map Product.name).Nodup := by
  unfold upsertProduct
  by_cases hc : (ps.find? (fun p => p.name == r.name)).isSome = true
  · rw [if_pos hc]
    have hmap : (ps.map (fun p =>
        if p.name == r.name then
          { p with price := r.price, stock := r.stock, barcode := some r.barcode }
        else p)).map Product.name = ps.map Product.name := by
      rw [List.map_map]
      refine congrArg₂ _ (funext fun p => ?_) rfl
      show (if (p.name == r.name) = true then
        { p with price := r.price, stock := r.stock, barcode := some r.barcode }
        else p).name = p.name
      by_cases hp : (p.name == r.name) = true
      · rw [if_pos hp]
      · rw [if_neg hp]
    rw [hmap]
    exact h
  · rw [if_neg hc]
    have hnone : ps.find? (fun p => p.name == r.name) = none :=
      Option.not_isSome_iff_eq_none.mp hc
    have hnin : r.name ∉ ps.map Product.name := by
      intro hmem
      obtain ⟨p, hp, hpeq⟩ := List.mem_map.mp hmem
      exact List.find?_eq_none.mp hnone p hp (beq_iff_eq.mpr hpeq)
    rw [List.map_append, List.nodup_append]
    refine ⟨h, List.nodup_singleton _, fun a ha hb => hnin ?_⟩
    have h2 : a = r.name := List.mem_singleton.mp hb
    rw [← h2]
    exact ha

theorem names_nodup_seedWith (rows : List SeedRow) :
    ∀ (ps : List Product) (f : Nat), (ps.map Product.name).Nodup →
      ((seedWith rows ps f).1.map Product.name).Nodup := by
  induction rows with
  | nil => intro ps f h; exact h
  | cons s rest ih =>
    intro ps f h
    rw [seedWith_cons]
    exact ih _ _ (names_nodup_upsert ps f s h)

/-- Under unique names, a present name is carried by exactly one row. -/
theorem countP_name_eq_one (n : String) :
    ∀ (ps : List Product), (ps.map Product.name).Nodup →
      (∃ p ∈ ps, p.name = n) → ps.countP (fun p => p.name == n) = 1 := by
  intro ps
  induction ps with
  | nil =>
    intro _ hex
    obtain ⟨p, hp, _⟩ := hex
    exact absurd hp (List.not_mem_nil p)
  | cons a ps ih =>
    intro hnd hex
    rw [List.map_cons, List.nodup_cons] at hnd
    obtain ⟨han, hnd⟩ := hnd
    rw [List.countP_cons]
    by_cases hc : (a.name == n) = true
    · have h0 : ps.countP (fun p => p.name == n) = 0 := by
        rw [List.countP_eq_zero]
        intro p hp hpc
        refine han ?_
        have : a.name = p.name := by rw [eq_of_beq hc, eq_of_beq hpc]
        rw [this]
        exact List.mem_map_of_mem Product.name hp
      rw [h0, if_pos hc]
    · rw [if_neg hc]
      have hex2 : ∃ p ∈ ps, p.name = n := by
        obtain ⟨p, hp, hpn⟩ := hex
        rcases List.mem_cons.mp hp with h | h
        · exact absurd (beq_iff_eq.mpr (h ▸ hpn)) hc
        · exact ⟨p, h, hpn⟩
      rw [ih hnd hex2]

/-- The row with the seed row's name gets its values while keeping its id. -/
theorem mem_upsert_updated (ps : List Product) (f : Nat) (r : SeedRow)
    (p : Product) (hp : p ∈ ps) (hname : p.name = r.name) :
    ({ p with price := r.price, stock := r.stock, barcode := some r.barcode }
      : Product) ∈ (upsertProduct ps f r).1 := by
  unfold upsertProduct
  have hfind : (ps.find? (fun q => q.name == r.name)).isSome = true :=
    List.find?_isSome.mpr ⟨p, hp, beq_iff_eq.mpr hname⟩
  rw [if_pos hfind]
  have hmem := List.mem_map_of_mem (fun q =>
    if q.name == r.name then
      { q with price := r.price, stock := r.stock, barcode := some r.barcode }
    else q) hp
  have heq : (if (p.name == r.name) = true then
      { p with price := r.price, stock := r.stock, barcode := some r.barcode }
      else p)
      = ({ p with price := r.price, stock := r.stock, barcode := some r.barcode }
        : Product) := by
    rw [if_pos (beq_iff_eq.mpr hname)]
  rw [← heq]
  exact hmem

/-- A row with a different name passes through an upsert unchanged. -/
theorem mem_upsert_ne (ps : List Product) (f : Nat) (s : SeedRow)
    (p : Product) (hp : p ∈ ps) (hname : p.name ≠ s.name) :
    p ∈ (upsertProduct ps f s).1 := by
  unfold upsertProduct
  by_cases hc : (ps.find? (fun q => q.name == s.name)).isSome = true
  · rw [if_pos hc]
    have hmem := List.mem_map_of_mem (fun q =>
      if q.name == s.name then
        { q with price := s.price, stock := s.stock, barcode := some s.barcode }
      else q) hp
    have heq : (if (p.name == s.name) = true then
        { p with price := s.price, stock := s.stock, barcode := some s.barcode }
        else p) = p := by
      rw [if_neg (fun hb => hname (eq_of_beq hb))]
    rw [← heq]
    exact hmem
  · rw [if_neg hc]
    exact List.mem_append.mpr (Or.inl hp)

/-- A row whose name is in none of the seed rows survives seeding intact. -/
theorem seedWith_mem_of_ne (rows : List SeedRow) :
    ∀ (ps : List Product) (f : Nat) (p : Product), p ∈ ps →
      (∀ s ∈ rows, p.name ≠ s.name) → p ∈ (seedWith rows ps f).1 := by
  induction rows with
  | nil => intro ps f p hp _; exact hp
  | cons s rest ih =>
    intro ps f p hp hall
    rw [seedWith_cons]
    exact ih _ _ p (mem_upsert_ne ps f s p hp (hall s (List.mem_cons_self s rest)))
      (fun t ht => hall t (List.mem_cons_of_mem s ht))

/-- Seeding applies the matching seed row's values to an existing row,
preserving its id. -/
theorem seedWith_mem_updated (rows : List SeedRow) :
    ∀ (ps : List Product) (f : Nat) (r : SeedRow) (p : Product),
      r ∈ rows → (rows.map SeedRow.name).Nodup → p ∈ ps → p.name = r.name →
      ({ p with price := r.price, stock := r.stock, barcode := some r.barcode }
        : Product) ∈ (seedWith rows ps f).1 := by
  induction rows with
  | nil => intro ps f r p hr _ _ _; exact absurd hr (List.not_mem_nil r)
  | cons s rest ih =>
    intro ps f r p hr hnd hp hname
    rw [List.map_cons, List.nodup_cons] at hnd
    obtain ⟨hsn, hndrest⟩ := hnd
    rw [seedWith_cons]
    rcases List.mem_cons.mp hr with hr | hr
    · rw [hr] at hname ⊢
      refine seedWith_mem_of_ne rest _ _ _
        (mem_upsert_updated ps f s p hp hname) ?_
      intro t ht hteq
      refine hsn ?_
      have h2 : s.name = t.name := by rw [← hname]; exact hteq
      rw [h2]
      exact List.mem_map_of_mem SeedRow.name ht
    · have hpne : p.name ≠ s.name := by
        intro hps
        refine hsn ?_
        rw [← hps, hname]
        exact List.mem_map_of_mem SeedRow.name hr
      exact ih _ _ r p hr hndrest (mem_upsert_ne ps f s p hp hpne) hname

/-! ### Claim theorems -/

/-- C1: Order placement is atomic: every non-success response (invalid
request, unknown product, insufficient stock — this is every rollback path)
leaves the database exactly as it was, and a success commits all stock
decrements, the one order row and its order-item rows together. -/
theorem orderPlacementAtomic (db : DB) (n : Nat) (pc : String) :
    (∀ body : ItemsField, (postOrders db n pc body).1.isOk = false →
      (postOrders db n pc body).2 = db) ∧
    (∀ items : List ReqItem,
      (postOrders db n pc (.list items)).1.isOk = true →
      (postOrders db n pc (.list items)).2 =
        ⟨decrementAll db.products items,
         db.orders ++
           [⟨n, round2 (specSubtotal db.products items * (108 / 100 : Rat)), pc⟩],
         db.orderItems ++
           items.map (fun it => ⟨n, it.productId, it.quantity⟩)⟩) := by
  constructor
  · exact fun body h => postOrders_err_state db n pc body h
  · intro items h
    have hm := (postOrders_ok_master db n pc items h).1
    rw [hm]

/-- Witness for C1 at the seeded catalog: an order naming an unknown
product rolls back, an order of two Milk commits the decremented table. -/
theorem orderPlacementAtomic_witness :
    (postOrders seedDB 1 "123456" (.list [⟨99, 1⟩])).2 = seedDB ∧
    (postOrders seedDB 1 "123456" (.list [⟨0, 2⟩])).2 =
      ⟨decrementAll seedDB.products [⟨0, 2⟩],
       seedDB.orders ++
         [⟨1, round2 (specSubtotal seedDB.products [⟨0, 2⟩] * (108 / 100 : Rat)),
           "123456"⟩],
       seedDB.orderItems ++
         [(⟨0, 2⟩ : ReqItem)].map (fun it => ⟨1, it.productId, it.quantity⟩)⟩ :=
  ⟨(orderPlacementAtomic seedDB 1 "123456").1 _ (by decide),
   (orderPlacementAtomic seedDB 1 "123456").2 [⟨0, 2⟩] (by decide)⟩

/-- C2: On success every product's stock is decremented by the sum of its
requested quantities (duplicate occurrences add up), and exactly one order
row plus one order-item row per input item are appended. -/
theorem orderDecrementsStock (db : DB) (n : Nat) (pc : String)
    (items : List ReqItem)
    (hok : (postOrders db n pc (.list items)).1.isOk = true) :
    (∀ pid : Nat, (findProduct db.products pid).isSome = true →
      stockOf (postOrders db n pc (.list items)).2.products pid
        = stockOf db.products pid - qtySum items pid) ∧
    (postOrders db n pc (.list items)).2.orders
      = db.orders ++
          [⟨n, round2 (specSubtotal db.products items * (108 / 100 : Rat)), pc⟩] ∧
    (postOrders db n pc (.list items)).2.orderItems
      = db.orderItems ++ items.map (fun it => ⟨n, it.productId, it.quantity⟩) := by
  obtain ⟨hmaster, _, _⟩ := postOrders_ok_master db n pc items hok
  rw [hmaster]
  exact ⟨fun pid hpid => stockOf_decrementAll items db.products pid hpid, rfl, rfl⟩

/-- Witness for C2: ordering 2 Milk and 1 Bread at the seeded catalog. -/
theorem orderDecrementsStock_witness :
    (∀ pid : Nat, (findProduct seedDB.products pid).isSome = true →
      stockOf (postOrders seedDB 2 "222222"
          (.list [⟨0, 2⟩, ⟨1, 1⟩])).2.products pid
        = stockOf seedDB.products pid - qtySum [⟨0, 2⟩, ⟨1, 1⟩] pid) ∧
    (postOrders seedDB 2 "222222" (.list [⟨0, 2⟩, ⟨1, 1⟩])).2.orders
      = seedDB.orders ++
          [⟨2, round2 (specSubtotal seedDB.products [⟨0, 2⟩, ⟨1, 1⟩]
            * (108 / 100 : Rat)), "222222"⟩] ∧
    (postOrders seedDB 2 "222222" (.list [⟨0, 2⟩, ⟨1, 1⟩])).2.orderItems
      = seedDB.orderItems ++
          [(⟨0, 2⟩ : ReqItem), ⟨1, 1⟩].map
            (fun it => ⟨2, it.productId, it.quantity⟩) :=
  orderDecrementsStock seedDB 2 "222222" [⟨0, 2⟩, ⟨1, 1⟩] (by decide)

/-- C3: On success the returned total is Σ(unit price × quantity) times
1.08, rounded to 2 decimals and rendered as a 2-decimal string. -/
theorem orderTotalTaxed (db : DB) (n : Nat) (pc : String)
    (items : List ReqItem)
    (hok : (postOrders db n pc (.list items)).1.isOk = true) :
    (postOrders db n pc (.list items)).1
      = .ok n (toFixed2 (specSubtotal db.products items * (108 / 100 : Rat))) pc
          (resolveAll db.products items) := by
  have hm := (postOrders_ok_master db n pc items hok).1
  rw [hm]

/-- Witness for C3: 2 units of Milk (price 3.00) yield the total "6.48". -/
theorem orderTotalTaxed_witness :
    (postOrders seedDB 100 "123456" (.list [⟨0, 2⟩])).1
      = .ok 100 "6.48" "123456" [⟨0, 2, "Milk", 3⟩] := by
  rw [orderTotalTaxed seedDB 100 "123456" [⟨0, 2⟩] (by decide)]
  have hp : findProduct seedDB.products 0
      = some ⟨0, "Milk", 3, 50, some "1234567890"⟩ := by decide
  have hpr : priceOf seedDB.products 0 = 3 := by
    unfold priceOf; rw [hp]; rfl
  have hpn : nameOf seedDB.products 0 = "Milk" := by
    unfold nameOf; rw [hp]; rfl
  have hsub : specSubtotal seedDB.products [⟨0, 2⟩] = 6 := by
    unfold specSubtotal
    rw [List.map_cons, List.map_nil, List.sum_cons, List.sum_nil]
    rw [show (⟨0, 2⟩ : ReqItem).productId = 0 from rfl]
    rw [hpr]
    norm_num
  have hres : resolveAll seedDB.products [⟨0, 2⟩] = [⟨0, 2, "Milk", 3⟩] := by
    unfold resolveAll
    rw [List.map_cons, List.map_nil]
    rw [show (⟨0, 2⟩ : ReqItem).productId = 0 from rfl]
    rw [hpr, hpn]
  rw [hsub, hres]
  have htf : toFixed2 ((6 : Rat) * (108 / 100)) = "6.48" := by
    unfold toFixed2
    have h648 : ((6 : Rat) * (108 / 100)) * 100 = ((648 : Int) : Rat) := by
      norm_num
    rw [h648, round_intCast]
    rfl
  rw [htf]

/-- C4: The handler answers `InsufficientStock` (HTTP 400) exactly when
some item, processed in list order, requests strictly more than that
product's stock at the time it is checked; the failure leaves the state
unchanged, and a single-item request for exactly the available stock
succeeds. -/
theorem insufficientStockIff (db : DB) (n : Nat) (pc : String) :
    (∀ items : List ReqItem,
      ((postOrders db n pc (.list items)).1.isInsufficient = true ↔
        specStockRunsOut db.products items = true)) ∧
    (∀ items : List ReqItem,
      (postOrders db n pc (.list items)).1.isInsufficient = true →
        (postOrders db n pc (.list items)).2 = db ∧
        (postOrders db n pc (.list items)).1.status = 400) ∧
    (∀ (pid : Nat) (p : Product), findProduct db.products pid = some p →
      (postOrders db n pc (.list [⟨pid, p.stock⟩])).1.isOk = true) := by
  refine ⟨?_, ?_, ?_⟩
  · intro items
    rw [postOrders_isInsufficient]
  · intro items h
    have hnotok : (postOrders db n pc (.list items)).1.isOk = false := by
      cases hr : (postOrders db n pc (.list items)).1 with
      | ok a b c d => rw [hr] at h; exact Bool.noConfusion h
      | invalidRequest => rfl
      | productNotFound pid => rfl
      | insufficientStock pid => rfl
    refine ⟨postOrders_err_state db n pc _ hnotok, ?_⟩
    cases hr : (postOrders db n pc (.list items)).1 with
    | ok a b c d => rw [hr] at h; exact Bool.noConfusion h
    | invalidRequest => rw [hr] at h; exact Bool.noConfusion h
    | productNotFound pid => rw [hr] at h; exact Bool.noConfusion h
    | insufficientStock pid => rfl
  · exact fun pid p hf => postOrders_exact_stock db n pc pid p hf

/-- Witness for C4: 51 Milk (stock 50) is refused with stock untouched,
50 Milk succeeds. -/
theorem insufficientStockIff_witness :
    specStockRunsOut seedDB.products [⟨0, 51⟩] = true ∧
    (postOrders seedDB 3 "333333" (.list [⟨0, 51⟩])).1.isInsufficient = true ∧
    (postOrders seedDB 3 "333333" (.list [⟨0, 51⟩])).2 = seedDB ∧
    (postOrders seedDB 3 "333333" (.list [⟨0, 50⟩])).1.isOk = true := by
  have h := insufficientStockIff seedDB 3 "333333"
  have h1 : (postOrders seedDB 3 "333333" (.list [⟨0, 51⟩])).1.isInsufficient
      = true := (h.1 [⟨0, 51⟩]).mpr (by decide)
  exact ⟨by decide, h1, (h.2.1 [⟨0, 51⟩] h1).1,
    h.2.2 0 ⟨0, "Milk", 3, 50, some "1234567890"⟩ (by decide)⟩

/-- C5: Stock never goes negative: with unique product ids, if every stock
is non-negative before a request (of any shape, duplicates included), every
stock is non-negative after it, whether it succeeds or fails. -/
theorem stockStaysNonnegative (db : DB) (n : Nat) (pc : String)
    (body : ItemsField) (hnd : (db.products.map Product.id).Nodup)
    (hpos : ∀ p ∈ db.products, 0 ≤ p.stock) :
    ∀ p ∈ (postOrders db n pc body).2.products, 0 ≤ p.stock := by
  rcases postOrders_snd db n pc body with h | h
  · rw [h]; exact hpos
  · cases body with
    | absent => exact Bool.noConfusion h
    | notList => exact Bool.noConfusion h
    | list items =>
      obtain ⟨hmaster, ⟨out, hout⟩, _⟩ := postOrders_ok_master db n pc items h
      have hnn := processItems_nonneg items db.products 0 [] out hnd hpos hout
      have h1 : out.1 = decrementAll db.products items :=
        (processItems_ok_eq items _ _ _ _ hout).1
      rw [hmaster]
      show ∀ p ∈ decrementAll db.products items, 0 ≤ p.stock
      rw [← h1]
      exact hnn

/-- Witness for C5: emptying the whole Milk stock keeps every stock
non-negative. -/
theorem stockStaysNonnegative_witness :
    ((postOrders seedDB 4 "444444" (.list [⟨0, 50⟩])).2.products.all
      (fun p => decide (0 ≤ p.stock))) = true := by
  rw [List.all_eq_true]
  intro p hp
  exact decide_eq_true
    (stockStaysNonnegative seedDB 4 "444444" _ (by decide) (by decide) p hp)

/-- C6: An absent, non-list or empty items field is rejected with the
`InvalidRequest` body and HTTP 400, with the state unchanged. -/
theorem invalidItemsRejected (db : DB) (n : Nat) (pc : String) :
    postOrders db n pc .absent = (.invalidRequest, db) ∧
    postOrders db n pc .notList = (.invalidRequest, db) ∧
    postOrders db n pc (.list []) = (.invalidRequest, db) ∧
    OrderResult.invalidRequest.status = 400 :=
  ⟨rfl, rfl, rfl, rfl⟩

/-- C7 (failing input): the handler accepts a quantity of 0 — the stock
check `product.stock < item.quantity` passes — and persists an order-item
row with quantity 0; a negative quantity is accepted too and increases the
stock (50 becomes 53), contradicting the data-model invariant that every
persisted OrderItem has a positive integer quantity. -/
theorem zeroQuantityAccepted :
    (postOrders seedDB 100 "123456" (.list [⟨0, 0⟩])).1.isOk = true ∧
    (postOrders seedDB 100 "123456" (.list [⟨0, 0⟩])).2.orderItems
      = [⟨100, 0, 0⟩] ∧
    (postOrders seedDB 101 "654321" (.list [⟨0, -3⟩])).1.isOk = true ∧
    stockOf (postOrders seedDB 101 "654321" (.list [⟨0, -3⟩])).2.products 0
      = 53 := by
  decide

/-- C8: the barcode lookup answers 404 with the error body exactly when no
product carries the barcode, and otherwise returns the single matching
product (uniqueness of non-null barcodes assumed, as the schema enforces). -/
theorem barcodeLookupSpec (db : DB) (bc : String)
    (huniq : ∀ p ∈ db.products, ∀ q ∈ db.products,
      p.barcode.isSome = true → p.barcode = q.barcode → p = q) :
    ((getProductByBarcode db bc).1 = 404 ↔
      ∀ p ∈ db.products, p.barcode ≠ some bc) ∧
    ((getProductByBarcode db bc).1 = 404 →
      (getProductByBarcode db bc).2 = .error "Product not found") ∧
    (∀ p : Product, (getProductByBarcode db bc).2 = .ok p →
      p ∈ db.products ∧ p.barcode = some bc ∧
      ∀ q ∈ db.products, q.barcode = some bc → q = p) := by
  cases hfil : db.products.filter (fun p => p.barcode == some bc) with
  | nil =>
    have hred : getProductByBarcode db bc
        = (404, .error "Product not found") := by
      unfold getProductByBarcode; rw [hfil]
    rw [hred]
    refine ⟨⟨fun _ p hp hbc => ?_, fun _ => rfl⟩, fun _ => rfl,
      fun p hp => Except.noConfusion hp⟩
    exact List.filter_eq_nil_iff.mp hfil p hp (beq_iff_eq.mpr hbc)
  | cons a rest =>
    have hred : getProductByBarcode db bc = (200, .ok a) := by
      unfold getProductByBarcode; rw [hfil]
    rw [hred]
    have hamem : a ∈ db.products ∧ (a.barcode == some bc) = true := by
      have hin : a ∈ db.products.filter (fun p => p.barcode == some bc) := by
        rw [hfil]; exact List.mem_cons_self a rest
      exact List.mem_filter.mp hin
    refine ⟨⟨fun h404 => absurd (show (200 : Nat) = 404 from h404) (by decide),
      fun hall => absurd (eq_of_beq hamem.2) (hall a hamem.1)⟩,
      fun h404 => absurd (show (200 : Nat) = 404 from h404) (by decide),
      fun p hp => ?_⟩
    have hpa : a = p := by injection hp
    rw [← hpa]
    refine ⟨hamem.1, eq_of_beq hamem.2, ?_⟩
    intro q hq hqbc
    refine huniq q hq a hamem.1 ?_ ?_
    · rw [hqbc]; rfl
    · rw [hqbc, eq_of_beq hamem.2]

/-- Witness for C8 at the seeded catalog: an unknown barcode answers 404
with the error body, the Milk barcode returns the Milk row. -/
theorem barcodeLookupSpec_witness :
    (getProductByBarcode seedDB "9999999999").1 = 404 ∧
    (getProductByBarcode seedDB "9999999999").2 = .error "Product not found" ∧
    ((⟨0, "Milk", 3, 50, some "1234567890"⟩ : Product) ∈ seedDB.products ∧
      (⟨0, "Milk", 3, 50, some "1234567890"⟩ : Product).barcode
        = some "1234567890" ∧
      ∀ q ∈ seedDB.products, q.barcode = some "1234567890" →
        q = (⟨0, "Milk", 3, 50, some "1234567890"⟩ : Product)) := by
  have hnodup : (seedDB.products.map Product.barcode).Nodup := by decide
  have huniq : ∀ p ∈ seedDB.products, ∀ q ∈ seedDB.products,
      p.barcode.isSome = true → p.barcode = q.barcode → p = q :=
    fun p hp q hq _ heq => List.inj_on_of_nodup_map hnodup hp hq heq
  have hu : (getProductByBarcode seedDB "9999999999").1 = 404 :=
    (barcodeLookupSpec seedDB "9999999999" huniq).1.mpr (by decide)
  refine ⟨hu, (barcodeLookupSpec seedDB "9999999999" huniq).2.1 hu, ?_⟩
  exact (barcodeLookupSpec seedDB "1234567890" huniq).2.2
    ⟨0, "Milk", 3, 50, some "1234567890"⟩ rfl

/-- C9: Catalog seeding is idempotent: seeding an already-seeded table is
the identity, and each seeded name is carried by exactly one row. -/
theorem seedingIdempotent (ps : List Product) (f1 f2 : Nat)
    (h : (ps.map Product.name).Nodup) :
    (seedCatalog (seedCatalog ps f1).1 f2).1 = (seedCatalog ps f1).1 ∧
    ∀ r ∈ seedRows,
      (seedCatalog ps f1).1.countP (fun p => p.name == r.name) = 1 := by
  have hnd : (seedRows.map SeedRow.name).Nodup := by decide
  constructor
  · unfold seedCatalog
    rw [seedWith_of_all_applied seedRows _ f2
      (fun r hr => seedWith_applied seedRows ps f1 r hr hnd)]
  · intro r hr
    have happ := seedWith_applied seedRows ps f1 r hr hnd
    exact countP_name_eq_one r.name _ (names_nodup_seedWith seedRows ps f1 h)
      happ.1

/-- Witness for C9: seeding the empty table twice equals seeding it once. -/
theorem seedingIdempotent_witness :
    (seedCatalog (seedCatalog [] 0).1 9).1 = (seedCatalog [] 0).1 ∧
    ∀ r ∈ seedRows,
      (seedCatalog [] 0).1.countP (fun p => p.name == r.name) = 1 :=
  seedingIdempotent [] 0 9 (by decide)

/-- C10: Seeding unconditionally overwrites: a row named like a seed row
gets the seed price, stock and barcode while keeping its id, and rows with
other names survive unchanged. -/
theorem seedingOverwrites (ps : List Product) (f : Nat) :
    (∀ r ∈ seedRows, ∀ p ∈ ps, p.name = r.name →
      ({ p with price := r.price, stock := r.stock, barcode := some r.barcode }
        : Product) ∈ (seedCatalog ps f).1) ∧
    (∀ p ∈ ps, (∀ r ∈ seedRows, p.name ≠ r.name) →
      p ∈ (seedCatalog ps f).1) := by
  have hnd : (seedRows.map SeedRow.name).Nodup := by decide
  exact ⟨fun r hr p hp hname =>
      seedWith_mem_updated seedRows ps f r p hr hnd hp hname,
    fun p hp hall => seedWith_mem_of_ne seedRows ps f p hp hall⟩

/-- Witness for C10: a Milk row drained to stock 48 is reset to stock 50
keeping id 0, and a non-seeded product survives seeding unchanged. -/
theorem seedingOverwrites_witness :
    (⟨0, "Milk", 3, 50, some "1234567890"⟩ : Product)
      ∈ (seedCatalog [⟨0, "Milk", 3, 48, some "1234567890"⟩,
          ⟨9, "Candle", 1, 5, none⟩] 10).1 ∧
    (⟨9, "Candle", 1, 5, none⟩ : Product)
      ∈ (seedCatalog [⟨0, "Milk", 3, 48, some "1234567890"⟩,
          ⟨9, "Candle", 1, 5, none⟩] 10).1 := by
  have h := seedingOverwrites
    [⟨0, "Milk", 3, 48, some "1234567890"⟩, ⟨9, "Candle", 1, 5, none⟩] 10
  exact ⟨h.1 ⟨"Milk", 3, 50, "1234567890"⟩ (by decide)
      ⟨0, "Milk", 3, 48, some "1234567890"⟩ (by decide) (by decide),
    h.2 ⟨9, "Candle", 1, 5, none⟩ (by decide) (by decide)⟩

end Supermarket
